import Mathlib

/-!
Formal model of src/process_logo.py (function process_logo_high_res).

The script processes one RGBA logo image in four stages:
1. keying: recompute every pixel's alpha from its color magnitude
   dist = sqrt(r^2 + g^2 + b^2) by the clamped linear ramp
   new_alpha = np.clip((dist - 20.0) / (60.0 - 20.0), 0, 1) * 255,
   converted to uint8 by truncation (data.astype(np.uint8));
2. crop to the bounding box of the non-transparent content (getbbox/crop);
3. truncate the image below the first low-coverage row gap ("text split");
4. crop to the bounding box again, then save.

Modelling conventions:
* a pixel is four natural-number channels (decoded PNG channels are 0..255);
* an image is the list of its pixel rows, as in the script's numpy array;
* the script's float64 arithmetic is modelled by exact real arithmetic; the
  float-to-uint8 conversion truncates, which on the clipped nonnegative
  values equals the floor;
* PIL's Image.getbbox on an RGBA image (alpha_only default) returns the
  bounding box (left, top, right, bottom), right/bottom exclusive, of the
  pixels with nonzero alpha, or None when every pixel is fully transparent;
  PIL's Image.crop restricts the image to such a box.  Both are modelled
  below on the list-of-rows representation.
-/

namespace ProcessLogo

/-- One RGBA pixel of the numpy array: channels r, g, b, a. -/
structure Pixel where
  r : ℕ
  g : ℕ
  b : ℕ
  a : ℕ
deriving DecidableEq

/-- The all-zero pixel, the value outside the bounds of an image. -/
def pixDefault : Pixel := ⟨0, 0, 0, 0⟩

/-- An image as the list of its rows, mirroring the numpy array layout. -/
abbrev Image := List (List Pixel)

/-- Squared color magnitude r^2 + g^2 + b^2 of a pixel; the script's
dist = np.sqrt(r**2 + g**2 + b**2) is Real.sqrt (sqMag p). -/
def sqMag (p : Pixel) : ℕ := p.r ^ 2 + p.g ^ 2 + p.b ^ 2

/-- The keyed alpha of a pixel with squared magnitude s: closed form of
truncating new_alpha = np.clip((dist - 20.0) / (60.0 - 20.0), 0, 1) * 255
with dist = sqrt s.  Truncating 255 * clip((sqrt s - 20) / 40, 0, 1) gives
min 255 (max 0 (floor ((51 * sqrt s - 1020) / 8))), and
floor (51 * sqrt s) = floor (sqrt (2601 * s)) = Nat.sqrt (2601 * s); the
agreement with the directly transcribed formula is proved in
alphaOfSq_eq_floor_ramp below. -/
def alphaOfSq (s : ℕ) : ℕ := min 255 ((Nat.sqrt (2601 * s) - 1020) / 8)

/-- Keying one pixel: overwrite the alpha channel, keep r, g, b
(data[..., 3] = new_alpha). -/
def keyPixel (p : Pixel) : Pixel := ⟨p.r, p.g, p.b, alphaOfSq (sqMag p)⟩

/-- Keying a whole image (single full-image pass over all pixels). -/
def keyImage (img : Image) : Image := img.map (List.map keyPixel)

lemma alphaOfSq_of_le {s : ℕ} (h : s ≤ 400) : alphaOfSq s = 0 := by
  have h1 : Nat.sqrt (2601 * s) ≤ 1020 :=
    calc Nat.sqrt (2601 * s) ≤ Nat.sqrt (1020 * 1020) := Nat.sqrt_le_sqrt (by omega)
    _ = 1020 := Nat.sqrt_eq 1020
  simp [alphaOfSq, Nat.sub_eq_zero_of_le h1]

lemma alphaOfSq_of_ge {s : ℕ} (h : 3600 ≤ s) : alphaOfSq s = 255 := by
  have h1 : 3060 ≤ Nat.sqrt (2601 * s) :=
    calc (3060 : ℕ) = Nat.sqrt (3060 * 3060) := (Nat.sqrt_eq 3060).symm
    _ ≤ Nat.sqrt (2601 * s) := Nat.sqrt_le_sqrt (by omega)
  have h2 : 255 ≤ (Nat.sqrt (2601 * s) - 1020) / 8 := by
    have h3 : (3060 - 1020) / 8 ≤ (Nat.sqrt (2601 * s) - 1020) / 8 :=
      Nat.div_le_div_right (by omega)
    omega
  simp [alphaOfSq, min_eq_left h2]

lemma alphaOfSq_mono {s t : ℕ} (h : s ≤ t) : alphaOfSq s ≤ alphaOfSq t := by
  have h1 : Nat.sqrt (2601 * s) ≤ Nat.sqrt (2601 * t) :=
    Nat.sqrt_le_sqrt (Nat.mul_le_mul (le_refl 2601) h)
  exact min_le_min (le_refl 255) (Nat.div_le_div_right (by omega))

lemma sqMag_cast_le {s : ℕ} {c : ℝ} (h : Real.sqrt s ≤ c) : (s : ℝ) ≤ c ^ 2 := by
  have h0 := Real.sq_sqrt (Nat.cast_nonneg (α := ℝ) s)
  nlinarith [Real.sqrt_nonneg (s : ℝ)]

lemma sqMag_cast_ge {s : ℕ} {c : ℝ} (hc : 0 ≤ c) (h : c ≤ Real.sqrt s) :
    c ^ 2 ≤ (s : ℝ) := by
  have h0 := Real.sq_sqrt (Nat.cast_nonneg (α := ℝ) s)
  nlinarith [Real.sqrt_nonneg (s : ℝ)]

lemma keyPixel_alpha_of_le (p : Pixel) (h : Real.sqrt (sqMag p) ≤ 20) :
    (keyPixel p).a = 0 := by
  have hs : (sqMag p : ℝ) ≤ 400 := by
    have := sqMag_cast_le h
    norm_num at this
    exact_mod_cast this
  have hs' : sqMag p ≤ 400 := by exact_mod_cast hs
  simpa [keyPixel] using alphaOfSq_of_le hs'

lemma keyPixel_alpha_of_ge (p : Pixel) (h : (60 : ℝ) ≤ Real.sqrt (sqMag p)) :
    (keyPixel p).a = 255 := by
  have hs : (3600 : ℝ) ≤ (sqMag p : ℝ) := by
    have := sqMag_cast_ge (by norm_num : (0:ℝ) ≤ 60) h
    norm_num at this
    exact_mod_cast this
  have hs' : 3600 ≤ sqMag p := by exact_mod_cast hs
  simpa [keyPixel] using alphaOfSq_of_ge hs'

lemma alphaOfSq_midrange (s : ℕ) (h1 : 20 < Real.sqrt s) (h2 : Real.sqrt s < 60) :
    (alphaOfSq s : ℤ) = ⌊255 * (Real.sqrt s - 20) / 40⌋ := by
  set x := Real.sqrt (s : ℝ) with hx
  set n := Nat.sqrt (2601 * s) with hn
  have hsqrt : Real.sqrt ((2601 * s : ℕ) : ℝ) = 51 * x := by
    push_cast
    rw [show ((2601 : ℝ) * s) = 51 ^ 2 * s by norm_num,
      Real.sqrt_mul (by positivity) , Real.sqrt_sq (by norm_num : (0:ℝ) ≤ 51)]
  have hle : (n : ℝ) ≤ 51 * x := by
    rw [← hsqrt]; exact Real.nat_sqrt_le_real_sqrt
  have hlt : 51 * x < (n : ℝ) + 1 := by
    rw [← hsqrt]; exact_mod_cast Real.real_sqrt_lt_nat_sqrt_succ
  have hn_lb : 1020 ≤ n := by
    have h' : (1019 : ℝ) < (n : ℝ) := by nlinarith
    have h'' : (1019 : ℕ) < n := by exact_mod_cast h'
    omega
  have hn_ub : n < 3060 := by
    have h' : (n : ℝ) < 3060 := lt_of_le_of_lt hle (by nlinarith)
    exact_mod_cast h'
  have hbounds : 8 * ((n - 1020) / 8) + 1020 ≤ n ∧ n ≤ 8 * ((n - 1020) / 8) + 1027 := by
    omega
  set k := (n - 1020) / 8 with hk
  have hk_ub : k ≤ 254 := by omega
  have halpha : alphaOfSq s = k := by
    simp [alphaOfSq, ← hn, ← hk, min_eq_right (by omega : k ≤ 255)]
  rw [halpha, show (255 : ℝ) * (x - 20) / 40 = (51 * x - 1020) / 8 by ring]
  symm
  rw [Int.floor_eq_iff]
  constructor
  · rw [le_div_iff₀ (by norm_num : (0:ℝ) < 8)]
    have hc : ((8 * k + 1020 : ℕ) : ℝ) ≤ (n : ℝ) := by exact_mod_cast hbounds.1
    push_cast at hc ⊢
    linarith
  · rw [div_lt_iff₀ (by norm_num : (0:ℝ) < 8)]
    have hc : ((n : ℕ) : ℝ) ≤ ((8 * k + 1027 : ℕ) : ℝ) := by exact_mod_cast hbounds.2
    push_cast at hc ⊢
    linarith

/-- The closed form alphaOfSq agrees with the literal transcription of the
script's keying formula: for every squared magnitude s, alphaOfSq s is the
truncation of np.clip((sqrt s - 20) / (60 - 20), 0, 1) * 255. -/
lemma alphaOfSq_eq_floor_ramp (s : ℕ) :
    (alphaOfSq s : ℤ) = ⌊min 1 (max 0 ((Real.sqrt s - 20) / 40)) * 255⌋ := by
  rcases le_or_lt (Real.sqrt s) 20 with h20 | h20
  · have hx : (Real.sqrt s - 20) / 40 ≤ 0 :=
      div_nonpos_iff.mpr (Or.inr ⟨by linarith, by norm_num⟩)
    have hs' : sqMag ⟨0,0,0,0⟩ = 0 := rfl
    have hle : (s : ℝ) ≤ 400 := by
      have := sqMag_cast_le h20
      norm_num at this
      exact_mod_cast this
    have hle' : s ≤ 400 := by exact_mod_cast hle
    rw [max_eq_left hx, min_eq_right (by norm_num : (0:ℝ) ≤ 1), zero_mul,
      Int.floor_zero, alphaOfSq_of_le hle']
    rfl
  · rcases le_or_lt 60 (Real.sqrt s) with h60 | h60
    · have hx1 : (1 : ℝ) ≤ (Real.sqrt s - 20) / 40 := by
        rw [le_div_iff₀ (by norm_num : (0:ℝ) < 40)]
        linarith
      have hge : (3600 : ℝ) ≤ (s : ℝ) := by
        have := sqMag_cast_ge (by norm_num : (0:ℝ) ≤ 60) h60
        norm_num at this
        exact_mod_cast this
      have hge' : 3600 ≤ s := by exact_mod_cast hge
      rw [max_eq_right (le_trans zero_le_one hx1), min_eq_left hx1, one_mul,
        alphaOfSq_of_ge hge']
      norm_num
    · have hx0 : (0 : ℝ) ≤ (Real.sqrt s - 20) / 40 :=
        le_of_lt (div_pos (by linarith) (by norm_num))
      have hx1 : (Real.sqrt s - 20) / 40 ≤ 1 :=
        le_of_lt ((div_lt_one (by norm_num : (0:ℝ) < 40)).mpr (by linarith))
      rw [max_eq_right hx0, min_eq_right hx1,
        show (Real.sqrt s - 20) / 40 * 255 = 255 * (Real.sqrt s - 20) / 40 by ring]
      exact alphaOfSq_midrange s h20 h60

/-- C4: after keying, a pixel whose color magnitude sqrt(r^2+g^2+b^2) is at
most 20.0 gets alpha 0, and a pixel whose color magnitude is at least 60.0
gets alpha 255. -/
theorem keying_clamps (p : Pixel) :
    (Real.sqrt (sqMag p) ≤ 20 → (keyPixel p).a = 0) ∧
    ((60 : ℝ) ≤ Real.sqrt (sqMag p) → (keyPixel p).a = 255) :=
  ⟨keyPixel_alpha_of_le p, keyPixel_alpha_of_ge p⟩

/-- Witness for C4 at the pixels (20,0,0) of magnitude exactly 20 and
(60,0,0) of magnitude exactly 60. -/
theorem keying_clamps_witness :
    (keyPixel ⟨20, 0, 0, 7⟩).a = 0 ∧ (keyPixel ⟨60, 0, 0, 7⟩).a = 255 := by
  have e1 : (sqMag ⟨20, 0, 0, 7⟩ : ℝ) = 20 ^ 2 := by norm_num [sqMag]
  have e2 : (sqMag ⟨60, 0, 0, 7⟩ : ℝ) = 60 ^ 2 := by norm_num [sqMag]
  have h1 : Real.sqrt (sqMag ⟨20, 0, 0, 7⟩) ≤ 20 := by
    rw [e1, Real.sqrt_sq (by norm_num : (0:ℝ) ≤ 20)]
  have h2 : (60 : ℝ) ≤ Real.sqrt (sqMag ⟨60, 0, 0, 7⟩) := by
    rw [e2, Real.sqrt_sq (by norm_num : (0:ℝ) ≤ 60)]
  exact ⟨(keying_clamps _).1 h1, (keying_clamps _).2 h2⟩

/-- The pixel of an image at column x, row y (the all-zero pixel when out of
bounds, as in PIL). -/
def pixAt (img : Image) (x y : ℕ) : Pixel := (img.getD y []).getD x pixDefault

/-- Maximal row length; for the rectangular arrays of the script this is the
image width. -/
def maxWidth (img : Image) : ℕ := img.foldr (fun row m => max row.length m) 0

lemma length_le_maxWidth {img : Image} {row : List Pixel} (h : row ∈ img) :
    row.length ≤ maxWidth img := by
  induction img with
  | nil => cases h
  | cons r rest ih =>
    rcases List.mem_cons.mp h with rfl | h'
    · exact le_max_left _ _
    · exact le_trans (ih h') (le_max_right _ _)

lemma getD_mem {α : Type} {l : List α} {y : ℕ} (d : α) (h : y < l.length) :
    l.getD y d ∈ l := by
  rw [List.getD_eq_getElem?_getD, List.getElem?_eq_getElem h]
  exact List.getElem_mem h

/-- The set of coordinates (x, y) of the pixels with nonzero alpha: the
content PIL's getbbox encloses. -/
def contentPos (img : Image) : Finset (ℕ × ℕ) :=
  (Finset.range (maxWidth img) ×ˢ Finset.range img.length).filter
    (fun q => (pixAt img q.1 q.2).a ≠ 0)

lemma pixAt_bounds {img : Image} {x y : ℕ} (h : (pixAt img x y).a ≠ 0) :
    y < img.length ∧ x < (img.getD y []).length := by
  constructor
  · by_contra hy
    push_neg at hy
    have hrow : img.getD y ([] : List Pixel) = [] := by
      rw [List.getD_eq_getElem?_getD, List.getElem?_eq_none hy]
      rfl
    rw [pixAt, hrow] at h
    exact h rfl
  · by_contra hx
    push_neg at hx
    have : pixAt img x y = pixDefault := by
      rw [pixAt, List.getD_eq_getElem?_getD, List.getElem?_eq_none hx]
      rfl
    rw [this] at h
    exact h rfl

lemma mem_contentPos {img : Image} {x y : ℕ} :
    (x, y) ∈ contentPos img ↔ (pixAt img x y).a ≠ 0 := by
  simp only [contentPos, Finset.mem_filter, Finset.mem_product, Finset.mem_range]
  refine ⟨fun h => h.2, fun h => ⟨⟨?_, (pixAt_bounds h).1⟩, h⟩⟩
  exact lt_of_lt_of_le (pixAt_bounds h).2
    (length_le_maxWidth (getD_mem [] (pixAt_bounds h).1))

/-- PIL Image.crop with box (l, t, r, b), right/bottom exclusive: keep rows
t..b-1 and in them columns l..r-1.  (The script only ever crops to boxes
inside the image, where no PIL zero-padding arises.) -/
def crop (img : Image) (l t r b : ℕ) : Image :=
  ((img.drop t).take (b - t)).map (fun row => (row.drop l).take (r - l))

/-- PIL Image.getbbox on an RGBA image (alpha_only default): the bounding box
(left, top, right, bottom), right/bottom exclusive, of the pixels with
nonzero alpha, or None when the image is fully transparent. -/
def getbbox (img : Image) : Option (ℕ × ℕ × ℕ × ℕ) :=
  if h : (contentPos img).Nonempty then
    some (((contentPos img).image Prod.fst).min' (h.image Prod.fst),
          ((contentPos img).image Prod.snd).min' (h.image Prod.snd),
          ((contentPos img).image Prod.fst).max' (h.image Prod.fst) + 1,
          ((contentPos img).image Prod.snd).max' (h.image Prod.snd) + 1)
  else none

/-- Lines 35-37 of the script: bbox = img.getbbox(); if bbox: img = img.crop(bbox).
A present box is a nonempty 4-tuple, hence truthy; None skips the crop. -/
def bboxCrop (img : Image) : Image :=
  match getbbox img with
  | some (l, t, r, b) => crop img l t r b
  | none => img

lemma crop_getElem? (img : Image) (l t r b y : ℕ) :
    (crop img l t r b)[y]? =
      if y < b - t then (img[t + y]?).map (fun row => (row.drop l).take (r - l))
      else none := by
  unfold crop
  by_cases hy : y < b - t
  · rw [if_pos hy, List.getElem?_map, List.getElem?_take_of_lt hy, List.getElem?_drop]
  · rw [if_neg hy, List.getElem?_eq_none]
    simp only [List.length_map, List.length_take, List.length_drop]
    omega

lemma rowCrop_getElem? (row : List Pixel) (l r x : ℕ) :
    ((row.drop l).take (r - l))[x]? = if x < r - l then row[l + x]? else none := by
  by_cases hx : x < r - l
  · rw [if_pos hx, List.getElem?_take_of_lt hx, List.getElem?_drop]
  · rw [if_neg hx, List.getElem?_eq_none]
    simp only [List.length_take, List.length_drop]
    omega

lemma pixAt_crop (img : Image) (l t r b x y : ℕ) :
    pixAt (crop img l t r b) x y =
      if x < r - l ∧ y < b - t then pixAt img (l + x) (t + y) else pixDefault := by
  simp only [pixAt, List.getD_eq_getElem?_getD, crop_getElem?]
  by_cases hy : y < b - t
  · simp only [if_pos hy]
    cases hrow : img[t + y]? with
    | none =>
      simp only [Option.map_none', Option.getD_none, List.getElem?_nil, and_true, hy]
      by_cases hx : x < r - l <;> simp [hx]
    | some row =>
      simp only [Option.map_some', Option.getD_some, rowCrop_getElem?]
      by_cases hx : x < r - l <;> simp [hx, hy]
  · simp only [if_neg hy, Option.getD_none, List.getElem?_nil]
    have : ¬ (x < r - l ∧ y < b - t) := by omega
    simp [this]

lemma crop_full {img : Image} {w h : ℕ} (hh : img.length ≤ h)
    (hw : ∀ row ∈ img, row.length ≤ w) : crop img 0 0 w h = img := by
  unfold crop
  simp only [List.drop_zero, Nat.sub_zero]
  rw [List.take_of_length_le hh]
  have hrows : ∀ row ∈ img, row.take w = row := fun row hr =>
    List.take_of_length_le (hw row hr)
  rw [List.map_congr_left hrows]
  exact List.map_id' img

lemma getbbox_eq_none_iff {img : Image} :
    getbbox img = none ↔ ∀ x y, (pixAt img x y).a = 0 := by
  unfold getbbox
  by_cases h : (contentPos img).Nonempty
  · rw [dif_pos h]
    simp only [reduceCtorEq, false_iff, not_forall]
    rcases h with ⟨⟨x, y⟩, hq⟩
    exact ⟨x, y, mem_contentPos.mp hq⟩
  · rw [dif_neg h]
    simp only [Finset.not_nonempty_iff_eq_empty] at h
    simp only [true_iff]
    intro x y
    by_contra ha
    have : (x, y) ∈ contentPos img := mem_contentPos.mpr ha
    simp [h] at this

lemma keyPixel_default : keyPixel pixDefault = pixDefault := by decide

lemma pixAt_keyImage (img : Image) (x y : ℕ) :
    pixAt (keyImage img) x y = keyPixel (pixAt img x y) := by
  simp only [pixAt, keyImage, List.getD_eq_getElem?_getD, List.getElem?_map]
  cases img[y]? with
  | none => simp [keyPixel_default]
  | some row =>
    simp only [Option.map_some', Option.getD_some, List.getElem?_map]
    cases row[x]? with
    | none => simp [keyPixel_default]
    | some p => simp

/-- C8: the keying step overwrites only the alpha channel: at every
coordinate of every image the red, green and blue channels after keying
equal their values before keying (also for pixels keyed to alpha 0). -/
theorem keying_preserves_rgb (img : Image) (x y : ℕ) :
    (pixAt (keyImage img) x y).r = (pixAt img x y).r ∧
    (pixAt (keyImage img) x y).g = (pixAt img x y).g ∧
    (pixAt (keyImage img) x y).b = (pixAt img x y).b := by
  rw [pixAt_keyImage]
  exact ⟨rfl, rfl, rfl⟩

lemma getbbox_some_spec {img : Image} {l t r b : ℕ}
    (h : getbbox img = some (l, t, r, b)) :
    (∀ x y, (x, y) ∈ contentPos img → l ≤ x ∧ x < r ∧ t ≤ y ∧ y < b) ∧
    (∃ y0, (l, y0) ∈ contentPos img) ∧ (∃ x0, (x0, t) ∈ contentPos img) ∧
    (∃ y1, (r - 1, y1) ∈ contentPos img) ∧ (∃ x1, (x1, b - 1) ∈ contentPos img) ∧
    l < r ∧ t < b := by
  by_cases hne : (contentPos img).Nonempty
  case neg => rw [getbbox, dif_neg hne] at h; cases h
  rw [getbbox, dif_pos hne] at h
  simp only [Option.some.injEq, Prod.mk.injEq] at h
  obtain ⟨hl, ht, hr, hb⟩ := h
  subst hl
  subst ht
  subst hr
  subst hb
  refine ⟨?_, ?_, ?_, ?_, ?_, ?_, ?_⟩
  · intro x y hq
    have h1 := Finset.min'_le ((contentPos img).image Prod.fst) x
      (Finset.mem_image_of_mem Prod.fst hq)
    have h2 := Finset.le_max' ((contentPos img).image Prod.fst) x
      (Finset.mem_image_of_mem Prod.fst hq)
    have h3 := Finset.min'_le ((contentPos img).image Prod.snd) y
      (Finset.mem_image_of_mem Prod.snd hq)
    have h4 := Finset.le_max' ((contentPos img).image Prod.snd) y
      (Finset.mem_image_of_mem Prod.snd hq)
    exact ⟨h1, Nat.lt_succ_of_le h2, h3, Nat.lt_succ_of_le h4⟩
  · obtain ⟨q, hq, hql⟩ := Finset.mem_image.mp
      (Finset.min'_mem ((contentPos img).image Prod.fst) (hne.image Prod.fst))
    exact ⟨q.2, by rw [← hql]; simpa using hq⟩
  · obtain ⟨q, hq, hql⟩ := Finset.mem_image.mp
      (Finset.min'_mem ((contentPos img).image Prod.snd) (hne.image Prod.snd))
    exact ⟨q.1, by rw [← hql]; simpa using hq⟩
  · obtain ⟨q, hq, hql⟩ := Finset.mem_image.mp
      (Finset.max'_mem ((contentPos img).image Prod.fst) (hne.image Prod.fst))
    refine ⟨q.2, ?_⟩
    have : ((contentPos img).image Prod.fst).max' (hne.image Prod.fst) + 1 - 1 = q.1 := by
      omega
    rw [this]
    simpa using hq
  · obtain ⟨q, hq, hql⟩ := Finset.mem_image.mp
      (Finset.max'_mem ((contentPos img).image Prod.snd) (hne.image Prod.snd))
    refine ⟨q.1, ?_⟩
    have : ((contentPos img).image Prod.snd).max' (hne.image Prod.snd) + 1 - 1 = q.2 := by
      omega
    rw [this]
    simpa using hq
  · exact Nat.lt_succ_of_le (Finset.min'_le ((contentPos img).image Prod.fst) _
      (Finset.max'_mem ((contentPos img).image Prod.fst) (hne.image Prod.fst)))
  · exact Nat.lt_succ_of_le (Finset.min'_le ((contentPos img).image Prod.snd) _
      (Finset.max'_mem ((contentPos img).image Prod.snd) (hne.image Prod.snd)))

/-- C2: the bounding-box crop computes the minimal rectangle enclosing
exactly the pixels whose alpha is nonzero: a coordinate is content iff its
alpha is nonzero (regardless of the red/green/blue values), a returned box
encloses all content and is contained in every enclosing rectangle, and when
no pixel has nonzero alpha the crop is skipped and the image is unchanged. -/
theorem bbox_minimal_rectangle (img : Image) :
    (∀ x y, ((x, y) ∈ contentPos img ↔ (pixAt img x y).a ≠ 0)) ∧
    (∀ l t r b, getbbox img = some (l, t, r, b) →
      (∀ x y, (pixAt img x y).a ≠ 0 → l ≤ x ∧ x < r ∧ t ≤ y ∧ y < b) ∧
      (∀ l' t' r' b',
        (∀ x y, (pixAt img x y).a ≠ 0 → l' ≤ x ∧ x < r' ∧ t' ≤ y ∧ y < b') →
        l' ≤ l ∧ t' ≤ t ∧ r ≤ r' ∧ b ≤ b')) ∧
    (getbbox img = none ↔ ∀ x y, (pixAt img x y).a = 0) ∧
    (getbbox img = none → bboxCrop img = img) := by
  refine ⟨fun x y => mem_contentPos, ?_, getbbox_eq_none_iff, ?_⟩
  · intro l t r b hg
    obtain ⟨hmem, ⟨y0, hy0⟩, ⟨x0, hx0⟩, ⟨y1, hy1⟩, ⟨x1, hx1⟩, hlr, htb⟩ :=
      getbbox_some_spec hg
    constructor
    · intro x y ha
      exact hmem x y (mem_contentPos.mpr ha)
    · intro l' t' r' b' hencl
      have h1 := hencl l y0 (mem_contentPos.mp hy0)
      have h2 := hencl x0 t (mem_contentPos.mp hx0)
      have h3 := hencl (r - 1) y1 (mem_contentPos.mp hy1)
      have h4 := hencl x1 (b - 1) (mem_contentPos.mp hx1)
      exact ⟨h1.1, h2.2.2.1, by omega, by omega⟩
  · intro hg
    simp [bboxCrop, hg]

/-- Witness for C2 on the 1-by-2 image with one pixel of nonzero alpha at
column 1: the bounding box is (1, 0, 2, 1) and encloses that pixel. -/
theorem bbox_minimal_rectangle_witness :
    getbbox [[pixDefault, ⟨9, 9, 9, 5⟩]] = some (1, 0, 2, 1) ∧
    (1 ≤ 1 ∧ 1 < 2 ∧ 0 ≤ 0 ∧ 0 < 1) := by
  have hb : getbbox [[pixDefault, ⟨9, 9, 9, 5⟩]] = some (1, 0, 2, 1) := by decide
  exact ⟨hb, ((bbox_minimal_rectangle _).2.1 1 0 2 1 hb).1 1 0 (by decide)⟩

lemma pixAt_default_or_mem (img : Image) (x y : ℕ) :
    pixAt img x y = pixDefault ∨ ∃ row ∈ img, pixAt img x y ∈ row := by
  by_cases hy : y < img.length
  · by_cases hx : x < (img.getD y ([] : List Pixel)).length
    · exact Or.inr ⟨img.getD y [], getD_mem [] hy, getD_mem pixDefault hx⟩
    · left
      push_neg at hx
      rw [pixAt, List.getD_eq_getElem?_getD, List.getElem?_eq_none hx]
      rfl
  · left
    push_neg at hy
    have hrow : img.getD y ([] : List Pixel) = [] := by
      rw [List.getD_eq_getElem?_getD, List.getElem?_eq_none hy]
      rfl
    rw [pixAt, hrow]
    rfl

/-- C5: when every pixel of the input image has color magnitude at most 20,
keying produces a fully transparent image, getbbox yields None, the
bounding-box step does not crop, and the pipeline proceeds with the
unmodified (fully transparent, same dimensions) keyed image. -/
theorem fully_transparent_bbox_noop (img : Image)
    (h : ∀ row ∈ img, ∀ p ∈ row, Real.sqrt (sqMag p) ≤ 20) :
    (∀ x y, (pixAt (keyImage img) x y).a = 0) ∧
    getbbox (keyImage img) = none ∧
    bboxCrop (keyImage img) = keyImage img ∧
    (keyImage img).length = img.length := by
  have hall : ∀ x y, (pixAt (keyImage img) x y).a = 0 := by
    intro x y
    rw [pixAt_keyImage]
    rcases pixAt_default_or_mem img x y with hd | ⟨row, hrow, hmem⟩
    · rw [hd, keyPixel_default]
      rfl
    · exact keyPixel_alpha_of_le _ (h row hrow _ hmem)
  have hnone : getbbox (keyImage img) = none := getbbox_eq_none_iff.mpr hall
  exact ⟨hall, hnone, by simp [bboxCrop, hnone], List.length_map _ _⟩

/-- Witness for C5 on a 1-by-1 image whose pixel (12, 16, 0) has color
magnitude exactly 20. -/
theorem fully_transparent_bbox_noop_witness :
    (∀ row ∈ ([[⟨12, 16, 0, 200⟩]] : Image), ∀ p ∈ row, Real.sqrt (sqMag p) ≤ 20) ∧
    getbbox (keyImage [[⟨12, 16, 0, 200⟩]]) = none := by
  have h : ∀ row ∈ ([[⟨12, 16, 0, 200⟩]] : Image), ∀ p ∈ row,
      Real.sqrt (sqMag p) ≤ 20 := by
    intro row hrow p hp
    simp only [List.mem_singleton] at hrow
    subst hrow
    simp only [List.mem_singleton] at hp
    subst hp
    have e : (sqMag ⟨12, 16, 0, 200⟩ : ℝ) = 20 ^ 2 := by norm_num [sqMag]
    rw [e, Real.sqrt_sq (by norm_num : (0:ℝ) ≤ 20)]
  exact ⟨h, (fully_transparent_bbox_noop _ h).2.1⟩

lemma contentPos_crop (img : Image) (l t r b x y : ℕ) :
    (x, y) ∈ contentPos (crop img l t r b) ↔
      x < r - l ∧ y < b - t ∧ (l + x, t + y) ∈ contentPos img := by
  rw [mem_contentPos, pixAt_crop, mem_contentPos]
  by_cases hc : x < r - l ∧ y < b - t
  · rw [if_pos hc]
    simp [hc.1, hc.2]
  · rw [if_neg hc]
    exact ⟨fun h => absurd (show pixDefault.a = 0 from rfl) h,
           fun h => absurd ⟨h.1, h.2.1⟩ hc⟩

lemma getbbox_crop_self {img : Image} {l t r b : ℕ}
    (hg : getbbox img = some (l, t, r, b)) :
    getbbox (crop img l t r b) = some (0, 0, r - l, b - t) := by
  obtain ⟨hmem, ⟨y0, hy0⟩, ⟨x0, hx0⟩, ⟨y1, hy1⟩, ⟨x1, hx1⟩, hlr, htb⟩ :=
    getbbox_some_spec hg
  have hy0b := hmem l y0 hy0
  have hx0b := hmem x0 t hx0
  have hy1b := hmem (r - 1) y1 hy1
  have hx1b := hmem x1 (b - 1) hx1
  have h0 : (0, y0 - t) ∈ contentPos (crop img l t r b) := by
    rw [contentPos_crop]
    refine ⟨by omega, by omega, ?_⟩
    have e : (l + 0, t + (y0 - t)) = (l, y0) := by
      simp only [Prod.mk.injEq]
      omega
    rw [e]
    exact hy0
  have h1 : (x0 - l, 0) ∈ contentPos (crop img l t r b) := by
    rw [contentPos_crop]
    refine ⟨by omega, by omega, ?_⟩
    have e : (l + (x0 - l), t + 0) = (x0, t) := by
      simp only [Prod.mk.injEq]
      omega
    rw [e]
    exact hx0
  have h2 : (r - 1 - l, y1 - t) ∈ contentPos (crop img l t r b) := by
    rw [contentPos_crop]
    refine ⟨by omega, by omega, ?_⟩
    have e : (l + (r - 1 - l), t + (y1 - t)) = (r - 1, y1) := by
      simp only [Prod.mk.injEq]
      omega
    rw [e]
    exact hy1
  have h3 : (x1 - l, b - 1 - t) ∈ contentPos (crop img l t r b) := by
    rw [contentPos_crop]
    refine ⟨by omega, by omega, ?_⟩
    have e : (l + (x1 - l), t + (b - 1 - t)) = (x1, b - 1) := by
      simp only [Prod.mk.injEq]
      omega
    rw [e]
    exact hx1
  have hub : ∀ x y, (x, y) ∈ contentPos (crop img l t r b) →
      x ≤ r - 1 - l ∧ y ≤ b - 1 - t := by
    intro x y hxy
    rw [contentPos_crop] at hxy
    have := hmem _ _ hxy.2.2
    omega
  have hne' : (contentPos (crop img l t r b)).Nonempty := ⟨(0, y0 - t), h0⟩
  rw [getbbox, dif_pos hne']
  have e1 : ((contentPos (crop img l t r b)).image Prod.fst).min'
      (hne'.image Prod.fst) = 0 :=
    Nat.eq_zero_of_le_zero
      (Finset.min'_le _ 0 (Finset.mem_image_of_mem Prod.fst h0))
  have e2 : ((contentPos (crop img l t r b)).image Prod.snd).min'
      (hne'.image Prod.snd) = 0 :=
    Nat.eq_zero_of_le_zero
      (Finset.min'_le _ 0 (Finset.mem_image_of_mem Prod.snd h1))
  have e3 : ((contentPos (crop img l t r b)).image Prod.fst).max'
      (hne'.image Prod.fst) = r - 1 - l := by
    apply le_antisymm
    · apply Finset.max'_le
      intro z hz
      obtain ⟨⟨zx, zy⟩, hq, hql⟩ := Finset.mem_image.mp hz
      have := hub zx zy hq
      omega
    · exact Finset.le_max' _ _ (Finset.mem_image_of_mem Prod.fst h2)
  have e4 : ((contentPos (crop img l t r b)).image Prod.snd).max'
      (hne'.image Prod.snd) = b - 1 - t := by
    apply le_antisymm
    · apply Finset.max'_le
      intro z hz
      obtain ⟨⟨zx, zy⟩, hq, hql⟩ := Finset.mem_image.mp hz
      have := hub zx zy hq
      omega
    · exact Finset.le_max' _ _ (Finset.mem_image_of_mem Prod.snd h3)
  rw [e1, e2, e3, e4]
  have hfin1 : r - 1 - l + 1 = r - l := by omega
  have hfin2 : b - 1 - t + 1 = b - t := by omega
  rw [hfin1, hfin2]

lemma crop_rows_le {img : Image} {l t r b : ℕ} :
    (crop img l t r b).length ≤ b - t ∧
    ∀ row ∈ crop img l t r b, row.length ≤ r - l := by
  constructor
  · simp only [crop, List.length_map, List.length_take, List.length_drop]
    omega
  · intro row hrow
    simp only [crop, List.mem_map] at hrow
    obtain ⟨row0, _, hrow0⟩ := hrow
    rw [← hrow0]
    simp only [List.length_take, List.length_drop]
    omega

/-- C7: the bounding-box crop is idempotent: applying it twice yields the
same image as applying it once. -/
theorem bboxCrop_idempotent (img : Image) :
    bboxCrop (bboxCrop img) = bboxCrop img := by
  cases hg : getbbox img with
  | none => simp [bboxCrop, hg]
  | some box =>
    obtain ⟨l, t, r, b⟩ := box
    have himg' : bboxCrop img = crop img l t r b := by simp [bboxCrop, hg]
    rw [himg']
    have hbb := getbbox_crop_self hg
    have hfull : crop (crop img l t r b) 0 0 (r - l) (b - t) = crop img l t r b :=
      crop_full crop_rows_le.1 crop_rows_le.2
    simp [bboxCrop, hbb, hfull]

/-- Per-row alpha coverage (line 42): row_sums = np.sum(alpha_channel, axis=1). -/
def rowSum (row : List Pixel) : ℕ := (row.map Pixel.a).sum

/-- The coverage profile of an image, one alpha sum per row. -/
def rowSums (img : Image) : List ℕ := img.map rowSum

/-- sum(row_sums[y:y+5]) (line 49): the 5-row window sum at row y. -/
def windowSum (rs : List ℕ) (y : ℕ) : ℕ := ((rs.drop y).take 5).sum

/-- The gap test of lines 48-49: row coverage below 10 and 5-row window sum
below 50. -/
def bandGap (rs : List ℕ) (y : ℕ) : Prop := rs.getD y 0 < 10 ∧ windowSum rs y < 50

instance (rs : List ℕ) (y : ℕ) : Decidable (bandGap rs y) := by
  unfold bandGap
  infer_instance

/-- The scanned row indices (line 47): range(int(height * 0.5), height - 5).
For any realistic height, height * 0.5 in float64 is exact and int()
truncates, so the start index is height / 2. -/
def scanRange (h : ℕ) : List ℕ := List.range' (h / 2) (h - 5 - h / 2)

/-- Lines 44-51: split_point = height, then the first scanned y with a gap
(break on the first hit), else the full height. -/
def splitPoint (rs : List ℕ) : ℕ :=
  match (scanRange rs.length).find? (fun y => decide (bandGap rs y)) with
  | some y => y
  | none => rs.length

/-- The image width as PIL reports it (new_img.width). -/
def width (img : Image) : ℕ := (img.headD []).length

/-- Line 53: final_logo = new_img.crop((0, 0, new_img.width, split_point)). -/
def textBandCrop (img : Image) : Image :=
  crop img 0 0 (width img) (splitPoint (rowSums img))

/-- Rectangular well-formedness of the decoded numpy array: h rows, all of
length w. -/
def Rect (img : Image) (w h : ℕ) : Prop :=
  img.length = h ∧ ∀ row ∈ img, row.length = w

instance (img : Image) (w h : ℕ) : Decidable (Rect img w h) := by
  unfold Rect
  infer_instance

lemma find?_range'_some {p : ℕ → Bool} {s n y : ℕ}
    (h : (List.range' s n).find? p = some y) :
    s ≤ y ∧ y < s + n ∧ p y = true := by
  have h1 := List.find?_some h
  have h2 := List.mem_of_find?_eq_some h
  rw [List.mem_range'] at h2
  obtain ⟨i, hi, rfl⟩ := h2
  exact ⟨by omega, by omega, h1⟩

lemma find?_range'_earlier {p : ℕ → Bool} {s n y z : ℕ}
    (h : (List.range' s n).find? p = some y) (h1 : s ≤ z) (h2 : z < y) :
    p z = false := by
  induction n generalizing s with
  | zero => simp [List.range'] at h
  | succ n ih =>
    rw [List.range'_succ, List.find?_cons] at h
    cases hp : p s with
    | true =>
      rw [hp] at h
      simp only [Option.some.injEq] at h
      exact absurd h2 (by omega)
    | false =>
      rw [hp] at h
      simp only at h
      rcases Nat.eq_or_lt_of_le h1 with rfl | hlt
      · exact hp
      · exact ih h hlt

/-- C6: for every cropped image with positive height, the split point never
exceeds the image height and never precedes floor(height * 0.5). -/
theorem splitPoint_bounds (img : Image) (hpos : 0 < img.length) :
    img.length / 2 ≤ splitPoint (rowSums img) ∧
    splitPoint (rowSums img) ≤ img.length := by
  have hlen : (rowSums img).length = img.length := List.length_map _ _
  unfold splitPoint scanRange
  rw [hlen]
  cases hf : (List.range' (img.length / 2) (img.length - 5 - img.length / 2)).find?
      (fun y => decide (bandGap (rowSums img) y)) with
  | none =>
    dsimp only
    omega
  | some y =>
    have hb := find?_range'_some hf
    dsimp only
    omega

/-- Witness for C6 on a 1-by-1 image. -/
theorem splitPoint_bounds_witness :
    ([[pixDefault]] : Image).length / 2 ≤ splitPoint (rowSums [[pixDefault]]) ∧
    splitPoint (rowSums [[pixDefault]]) ≤ ([[pixDefault]] : Image).length :=
  splitPoint_bounds [[pixDefault]] (by decide)

lemma crop_width_take (img : Image) (w h sp : ℕ) (hrect : Rect img w h) :
    crop img 0 0 (width img) sp = img.take sp := by
  unfold crop
  simp only [List.drop_zero, Nat.sub_zero]
  have hrows : ∀ row ∈ img.take sp, row.take (width img) = row := by
    intro row hrow
    have hne : img ≠ [] := by
      intro he
      rw [he] at hrow
      simp at hrow
    have hrw : row.length = w := hrect.2 row (List.mem_of_mem_take hrow)
    have hwidth : width img = w := by
      cases img with
      | nil => exact absurd rfl hne
      | cons r0 rest => simpa [width] using hrect.2 r0 (List.mem_cons_self r0 rest)
    rw [hwidth, List.take_of_length_le (le_of_eq hrw)]
  rw [List.map_congr_left hrows]
  exact List.map_id' _

/-- C1: for every cropped image with positive height, the splitter scans the
row indices from floor(height * 0.5) (inclusive) to height - 5 (exclusive)
over the per-row alpha sums; the split point is the first scanned row whose
own coverage is below 10 and whose 5-row window sum is below 50, and the
full height when no scanned row qualifies; the image is then cropped to the
rows [0, split point), keeping the full width. -/
theorem textband_split_spec (img : Image) (w h : ℕ) (hrect : Rect img w h)
    (hpos : 0 < h) :
    (∀ y, h / 2 ≤ y → y < h - 5 → bandGap (rowSums img) y →
      splitPoint (rowSums img) ≤ y) ∧
    (splitPoint (rowSums img) = h ∨
      (h / 2 ≤ splitPoint (rowSums img) ∧ splitPoint (rowSums img) < h - 5 ∧
        bandGap (rowSums img) (splitPoint (rowSums img)))) ∧
    textBandCrop img = img.take (splitPoint (rowSums img)) := by
  have hlen : (rowSums img).length = h := by
    rw [rowSums, List.length_map, hrect.1]
  refine ⟨?_, ?_, crop_width_take img w h _ hrect⟩
  · intro y hy1 hy2 hgap
    unfold splitPoint scanRange
    rw [hlen]
    cases hf : (List.range' (h / 2) (h - 5 - h / 2)).find?
        (fun z => decide (bandGap (rowSums img) z)) with
    | none =>
      have hmem : y ∈ List.range' (h / 2) (h - 5 - h / 2) :=
        List.mem_range'.mpr ⟨y - h / 2, by omega, by omega⟩
      have := List.find?_eq_none.mp hf y hmem
      simp only [decide_eq_true_eq] at this
      exact absurd hgap this
    | some z =>
      dsimp only
      by_contra hcon
      push_neg at hcon
      have := find?_range'_earlier hf hy1 hcon
      simp only [decide_eq_false_iff_not] at this
      exact absurd hgap this
  · unfold splitPoint scanRange
    rw [hlen]
    cases hf : (List.range' (h / 2) (h - 5 - h / 2)).find?
        (fun z => decide (bandGap (rowSums img) z)) with
    | none =>
      dsimp only
      exact Or.inl rfl
    | some z =>
      have hb := find?_range'_some hf
      dsimp only
      right
      refine ⟨by omega, by omega, ?_⟩
      have := hb.2.2
      simpa only [decide_eq_true_eq] using this

/-- Witness for C1 on a 12-row fully transparent one-column image: the first
scanned row 6 is a gap, and the crop keeps rows [0, 6). -/
theorem textband_split_spec_witness :
    Rect (List.replicate 12 [pixDefault]) 1 12 ∧
    textBandCrop (List.replicate 12 [pixDefault]) =
      (List.replicate 12 [pixDefault]).take
        (splitPoint (rowSums (List.replicate 12 [pixDefault]))) := by
  have hr : Rect (List.replicate 12 [pixDefault]) 1 12 := by decide
  exact ⟨hr, (textband_split_spec _ 1 12 hr (by norm_num)).2.2⟩

/-- C10: when the cropped image's height is at most 10 the scan range is
empty, so the split point is the full height and the truncation crop leaves
the image unchanged; and every scanned row index y (with
floor(h/2) ≤ y < h - 5) satisfies y + 4 ≤ h - 1, so its 5-row window lies
inside the image. -/
theorem smallHeight_scan_noop (img : Image) (w h : ℕ) (hrect : Rect img w h) :
    (h ≤ 10 →
      scanRange h = [] ∧ splitPoint (rowSums img) = h ∧ textBandCrop img = img) ∧
    (∀ y, h / 2 ≤ y → y < h - 5 → y + 4 ≤ h - 1) := by
  have hlen : (rowSums img).length = h := by
    rw [rowSums, List.length_map, hrect.1]
  constructor
  · intro hh
    have hcount : h - 5 - h / 2 = 0 := by omega
    have hempty : scanRange h = [] := by
      rw [scanRange, hcount]
      rfl
    have hsplit : splitPoint (rowSums img) = h := by
      unfold splitPoint
      rw [hlen, hempty]
      rfl
    refine ⟨hempty, hsplit, ?_⟩
    rw [textBandCrop, hsplit, crop_width_take img w h _ hrect, ← hrect.1]
    exact List.take_length img
  · intro y hy1 hy2
    omega

/-- Witness for C10 on a 1-by-1 image (height 1 ≤ 10). -/
theorem smallHeight_scan_noop_witness :
    Rect [[pixDefault]] 1 1 ∧
    (scanRange 1 = [] ∧ splitPoint (rowSums [[pixDefault]]) = 1 ∧
      textBandCrop [[pixDefault]] = [[pixDefault]]) := by
  have hr : Rect [[pixDefault]] 1 1 := by decide
  exact ⟨hr, (smallHeight_scan_noop _ 1 1 hr).1 (by norm_num)⟩

lemma alphaOfSq_1600 : alphaOfSq 1600 = 127 := by
  have h : Nat.sqrt (2601 * 1600) = 2040 := by
    rw [show 2601 * 1600 = 2040 * 2040 by norm_num, Nat.sqrt_eq]
  rw [alphaOfSq, h]
  norm_num

lemma sqrt_sqMag_le_iff {p q : Pixel}
    (h : Real.sqrt (sqMag p) ≤ Real.sqrt (sqMag q)) : sqMag p ≤ sqMag q := by
  have h1 : (sqMag p : ℝ) ≤ Real.sqrt (sqMag q) ^ 2 := sqMag_cast_le h
  rw [Real.sq_sqrt (Nat.cast_nonneg _)] at h1
  exact_mod_cast h1

/-- C3 (amended): the keyed alpha is monotonically non-decreasing in the
color magnitude, and for magnitude strictly between 20.0 and 60.0 it equals
the truncation floor(255 * (magnitude - 20) / 40) - not the rounding - so a
uniform image of magnitude exactly 40 gets alpha floor(127.5) = 127 in every
pixel. -/
theorem keying_midrange_alpha :
    (∀ p q : Pixel, Real.sqrt (sqMag p) ≤ Real.sqrt (sqMag q) →
      (keyPixel p).a ≤ (keyPixel q).a) ∧
    (∀ p : Pixel, 20 < Real.sqrt (sqMag p) → Real.sqrt (sqMag p) < 60 →
      ((keyPixel p).a : ℤ) = ⌊255 * (Real.sqrt (sqMag p) - 20) / 40⌋) ∧
    (∀ img : Image, (∀ row ∈ img, ∀ p ∈ row, Real.sqrt (sqMag p) = 40) →
      ∀ row ∈ keyImage img, ∀ p ∈ row, p.a = 127) := by
  refine ⟨?_, ?_, ?_⟩
  · intro p q h
    exact alphaOfSq_mono (sqrt_sqMag_le_iff h)
  · intro p h1 h2
    exact alphaOfSq_midrange (sqMag p) h1 h2
  · intro img h40 row hrow p hp
    rw [keyImage, List.mem_map] at hrow
    obtain ⟨row0, hrow0, rfl⟩ := hrow
    rw [List.mem_map] at hp
    obtain ⟨p0, hp0, rfl⟩ := hp
    have hs : sqMag p0 = 1600 := by
      have h1 : Real.sqrt (sqMag p0) = 40 := h40 row0 hrow0 p0 hp0
      have h2 : (sqMag p0 : ℝ) = 1600 := by
        have := Real.sq_sqrt (Nat.cast_nonneg (α := ℝ) (sqMag p0))
        rw [h1] at this
        norm_num at this
        exact_mod_cast this.symm
      exact_mod_cast h2
    show alphaOfSq (sqMag p0) = 127
    rw [hs, alphaOfSq_1600]

/-- Witness for C3 at the pixel (40, 0, 0) of color magnitude exactly 40:
the keyed alpha is the truncation 127. -/
theorem keying_midrange_alpha_witness :
    (keyPixel ⟨40, 0, 0, 0⟩).a = 127 := by
  have e : (sqMag ⟨40, 0, 0, 0⟩ : ℝ) = 40 ^ 2 := by norm_num [sqMag]
  have hs : Real.sqrt (sqMag ⟨40, 0, 0, 0⟩) = 40 := by
    rw [e, Real.sqrt_sq (by norm_num : (0:ℝ) ≤ 40)]
  have h2 := keying_midrange_alpha.2.1 ⟨40, 0, 0, 0⟩ (by rw [hs]; norm_num)
    (by rw [hs]; norm_num)
  rw [hs] at h2
  have h3 : ((keyPixel ⟨40, 0, 0, 0⟩).a : ℤ) = 127 := by
    rw [h2]
    rw [show (255 : ℝ) * (40 - 20) / 40 = 127.5 by norm_num, Int.floor_eq_iff]
    norm_num
  exact_mod_cast h3

/-- C3 counterexample: the claim as stated (alpha = round(255 * (m - 20)/40),
so 128 at magnitude 40) fails on the code: keying the uniform magnitude-40
image [[(40, 0, 0, 0)]] gives alpha 127 in its pixel, while
round(255 * (40 - 20) / 40) = round 127.5 = 128. -/
theorem keying_round_counterexample :
    keyImage [[⟨40, 0, 0, 0⟩]] = [[⟨40, 0, 0, 127⟩]] ∧
    Real.sqrt (sqMag ⟨40, 0, 0, 0⟩) = 40 ∧
    round ((255 : ℝ) * (40 - 20) / 40) = 128 ∧ (127 : ℕ) ≠ 128 := by
  refine ⟨?_, ?_, ?_, by norm_num⟩
  · have hs : sqMag ⟨40, 0, 0, 0⟩ = 1600 := by norm_num [sqMag]
    simp [keyImage, keyPixel, hs, alphaOfSq_1600]
  · have e : (sqMag ⟨40, 0, 0, 0⟩ : ℝ) = 40 ^ 2 := by norm_num [sqMag]
    rw [e, Real.sqrt_sq (by norm_num : (0:ℝ) ≤ 40)]
  · rw [show (255 : ℝ) * (40 - 20) / 40 = 127.5 by norm_num, round_eq,
      show (127.5 : ℝ) + 1 / 2 = ((128 : ℤ) : ℝ) by norm_num, Int.floor_intCast]

/-- The whole pure image transform of the script in order: keying, content
crop, text-band truncation, re-tightening content crop.  The surrounding
try/except failure boundary and the file load/save of the script are runtime
and file-system effects outside this embedding. -/
def pipeline (img : Image) : Image :=
  bboxCrop (textBandCrop (bboxCrop (keyImage img)))

end ProcessLogo
